import Mathlib

/-!
Netboot and Boot of the pxeboot command

A shallow embedding of `cmds/pxeboot/pxeboot.go` (u-root).

* `Pxeboot.path`   : the Go standard library functions `path.Split`, `path.Clean`
  and `path.Dir`, which `Boot` uses to compute the working directory.
* `Pxeboot.Regex`  : compiled regular expressions with the search semantics of
  `(*regexp.Regexp).MatchString`.
* `Pxeboot.Boot`   : the boot pipeline for one lease.
* `Pxeboot.Netboot`: interface filtering and the `for { select { ... } }` loop.

Collaborators that live outside the file (the DHCP client, the PXE config
loader, kexec, netlink) are represented by the values they return, collected in
`World` and in the `Lease` record.  Every call made to a collaborator is
recorded in a trace of `Event`s, so that statements such as "Boot is invoked on
at most one lease" can be phrased over the trace.

Go strings are byte strings.  They are modelled by Lean strings; the functions
of package `path` only inspect the ASCII bytes `/` and `.`, which never occur
inside a multi-byte UTF-8 sequence, so working on characters is equivalent.
-/

namespace Pxeboot

/-! ## Package `path` of the Go standard library -/

namespace path

/-- Byte `i` of `s` (`s[i]` in Go); reads outside the string yield NUL and are
never relied upon. -/
def byteAt (s : List Char) (i : Nat) : Char := s.getD i (Char.ofNat 0)

/-- Go `bytealg.LastIndexByteString(s, c)` scanning the indices below `i` downwards:
`for i := len(s) - 1; i >= 0; i-- { if s[i] == c { return i } }; return -1`. -/
def lastIndexByte (s : List Char) (c : Char) : Nat → Int
  | 0 => -1
  | i + 1 => if byteAt s i = c then (i : Int) else lastIndexByte s c i

/-- Go `path.Split`: `i := LastIndexByteString(path, '/'); return path[:i+1], path[i+1:]`. -/
def SplitBytes (p : List Char) : List Char × List Char :=
  let i := lastIndexByte p '/' p.length
  (p.take (i + 1).toNat, p.drop (i + 1).toNat)

/-- The output buffer of `path.Clean`.  `buf[0..w]` is the output written so far;
bytes at index `w` and above are stale.  (Go shares the storage with the input
string until the first differing byte; that is an optimisation only.) -/
structure lazybuf where
  buf : List Char
  w : Nat
deriving DecidableEq, Repr

/-- Go `(*lazybuf).index`. -/
def lazybuf.index (b : lazybuf) (i : Nat) : Char := byteAt b.buf i

/-- Go `(*lazybuf).append`: `buf[w] = c; w++`. -/
def lazybuf.append (b : lazybuf) (c : Char) : lazybuf :=
  { buf := b.buf.take b.w ++ [c], w := b.w + 1 }

/-- Go `(*lazybuf).string`: `buf[:w]`. -/
def lazybuf.string (b : lazybuf) : List Char := b.buf.take b.w

/-- The inner loop of the `..` case:
`for out.w > dotdot && out.index(out.w) != '/' { out.w-- }`. -/
def backtrackLoop (dotdot : Nat) : Nat → lazybuf → lazybuf
  | 0, out => out
  | fuel + 1, out =>
    if dotdot < out.w ∧ out.index out.w ≠ '/' then
      backtrackLoop dotdot fuel { out with w := out.w - 1 }
    else out

/-- The `..` case when it can backtrack: `out.w--` followed by `backtrackLoop`. -/
def backtrack (dotdot : Nat) (out : lazybuf) : lazybuf :=
  backtrackLoop dotdot out.w { out with w := out.w - 1 }

/-- Copying a real path element:
`for ; r < n && path[r] != '/'; r++ { out.append(path[r]) }`. -/
def copyElem (p : List Char) : Nat → Nat → lazybuf → Nat × lazybuf
  | 0, r, out => (r, out)
  | fuel + 1, r, out =>
    if r < p.length ∧ byteAt p r ≠ '/' then
      copyElem p fuel (r + 1) (out.append (byteAt p r))
    else (r, out)

/-- The main loop `for r < n { switch { ... } }` of `path.Clean`.  Every iteration
advances `r`, so `n - r` iterations suffice; the first argument bounds them. -/
def cleanLoop (p : List Char) (rooted : Bool) : Nat → Nat → lazybuf → Nat → lazybuf
  | 0, _, out, _ => out
  | fuel + 1, r, out, dotdot =>
    if r < p.length then
      if byteAt p r = '/' then
        -- empty path element
        cleanLoop p rooted fuel (r + 1) out dotdot
      else if byteAt p r = '.' ∧ (r + 1 = p.length ∨ byteAt p (r + 1) = '/') then
        -- . element
        cleanLoop p rooted fuel (r + 1) out dotdot
      else if byteAt p r = '.' ∧ byteAt p (r + 1) = '.'
          ∧ (r + 2 = p.length ∨ byteAt p (r + 2) = '/') then
        -- .. element: remove to last /
        if dotdot < out.w then
          cleanLoop p rooted fuel (r + 2) (backtrack dotdot out) dotdot
        else if rooted = false then
          let out1 := if 0 < out.w then out.append '/' else out
          let out2 := (out1.append '.').append '.'
          cleanLoop p rooted fuel (r + 2) out2 out2.w
        else
          cleanLoop p rooted fuel (r + 2) out dotdot
      else
        -- real path element: add slash if needed, copy element
        let out1 :=
          if (rooted = true ∧ out.w ≠ 1) ∨ (rooted = false ∧ out.w ≠ 0) then out.append '/'
          else out
        let rc := copyElem p p.length r out1
        cleanLoop p rooted fuel rc.1 rc.2 dotdot
    else out

/-- Go `path.Clean` on the bytes of the path. -/
def CleanBytes (p : List Char) : List Char :=
  if p = [] then ['.']
  else
    let rooted : Bool := decide (byteAt p 0 = '/')
    let out0 : lazybuf := { buf := [], w := 0 }
    let out :=
      if rooted then
        cleanLoop p rooted p.length 1 (out0.append '/') 1
      else
        cleanLoop p rooted p.length 0 out0 0
    -- Turn empty string into "."
    if out.w = 0 then ['.'] else out.string

/-- Go `path.Split`. -/
def Split (p : String) : String × String :=
  (⟨(SplitBytes p.data).1⟩, ⟨(SplitBytes p.data).2⟩)

/-- Go `path.Clean`. -/
def Clean (p : String) : String := ⟨CleanBytes p.data⟩

/-- Go `path.Dir`: `dir, _ := Split(path); return Clean(dir)`. -/
def Dir (p : String) : String := Clean (Split p).1

end path

/-! ## Package `regexp`: compiled patterns and `MatchString` -/

/-- A compiled regular expression (the result of `regexp.MustCompilePOSIX`).
One-or-more, optional and counted repetition are expressible through `seq`, `alt`,
`star` and `empty`. -/
inductive Regex where
  /-- the empty expression -/
  | empty
  /-- a literal character -/
  | char (c : Char)
  /-- the dot: any character but newline -/
  | any
  /-- a bracket expression: the listed ranges, negated when `neg` is set -/
  | cls (neg : Bool) (ranges : List (Char × Char))
  /-- the anchor at the beginning of the text -/
  | bol
  /-- the anchor at the end of the text -/
  | eol
  | seq (a b : Regex)
  | alt (a b : Regex)
  | star (a : Regex)
deriving DecidableEq, Repr

namespace Regex

/-- End positions reachable from `i` by repeating `step`; an iteration that does
not advance adds nothing, so `fuel = len - i` rounds are enough. -/
def starEnds (step : Nat → List Nat) : Nat → Nat → List Nat
  | 0, i => [i]
  | fuel + 1, i => i :: ((step i).filter (fun j => i < j)).flatMap (starEnds step fuel)

/-- All positions `j` such that the expression matches `s[i..j]`. -/
def ends : Regex → List Char → Nat → List Nat
  | .empty, _, i => [i]
  | .char c, s, i => if s.get? i = some c then [i + 1] else []
  | .any, s, i => if i < s.length ∧ s.get? i ≠ some '\n' then [i + 1] else []
  | .cls neg ranges, s, i =>
    match s.get? i with
    | some c => if (ranges.any (fun r => r.1 ≤ c ∧ c ≤ r.2)) != neg then [i + 1] else []
    | none => []
  | .bol, _, i => if i = 0 then [i] else []
  | .eol, s, i => if i = s.length then [i] else []
  | .seq a b, s, i => (ends a s i).flatMap (fun j => ends b s j)
  | .alt a b, s, i => ends a s i ++ ends b s i
  | .star a, s, i => starEnds (fun j => ends a s j) s.length i

/-- Go `(*Regexp).MatchString`: "reports whether the string s contains any match
of the regular expression" - a match may start and end anywhere in `s`. -/
def MatchString (re : Regex) (s : String) : Bool :=
  (List.range (s.data.length + 1)).any (fun i => !(re.ends s.data i).isEmpty)

/-- A match of the whole string: it starts at 0 and ends at the end of `s`.
(Not used by the program; the reading "the whole name is matched".) -/
def fullMatch (re : Regex) (s : String) : Bool :=
  (re.ends s.data 0).contains s.data.length

/-- The compiled form of a pattern without metacharacters: the characters in sequence. -/
def literal : List Char → Regex
  | [] => .empty
  | [c] => .char c
  | c :: cs => .seq (.char c) (literal cs)

end Regex

/-! ## Data model -/

/-- Equality of Go `(value, error)` results is decidable. -/
instance instDecidableEqExcept {ε α : Type} [DecidableEq ε] [DecidableEq α] :
    DecidableEq (Except ε α) := fun a b =>
  match a, b with
  | .ok x, .ok y => if h : x = y then isTrue (by rw [h]) else isFalse (fun h1 => h (by cases h1; rfl))
  | .error x, .error y =>
    if h : x = y then isTrue (by rw [h]) else isFalse (fun h1 => h (by cases h1; rfl))
  | .ok _, .error _ => isFalse (fun h => by cases h)
  | .error _, .ok _ => isFalse (fun h => by cases h)

/-- A `netlink.Link`, reduced to the attributes read by the program. -/
structure Link where
  Name : String
  HardwareAddr : List Nat
deriving DecidableEq, Repr

/-- Go `url.URL`. -/
structure URL where
  Scheme : String := ""
  Opaque : String := ""
  User : Option String := none
  Host : String := ""
  Path : String := ""
  RawPath : String := ""
  ForceQuery : Bool := false
  RawQuery : String := ""
  Fragment : String := ""
deriving DecidableEq, Repr

/-- A boot entry of the PXE configuration (a handle; its behaviour under
`ExecutionInfo` and `Execute` is given by the `World`). -/
structure Label where
  name : String
deriving DecidableEq, Repr

/-- A value of the element type of `pc.Entries`, a pointer to a boot entry: `none` is
the nil pointer, which is what indexing the map with an absent key yields. -/
abbrev Entry := Option Label

/-- Go `error` values that can flow through `Boot` and `Netboot`. -/
inductive GoError where
  /-- an error value produced by a collaborator -/
  | ext (msg : String)
  /-- the error `context.Canceled` -/
  | Canceled
  /-- the error `context.DeadlineExceeded` -/
  | DeadlineExceeded
  /-- the error `fmt.Errorf("nothing bootable found")` -/
  | nothingBootable
  /-- the error `fmt.Errorf("failed to parse pxelinux config: %v", err)` -/
  | parseConfig (err : GoError)
  /-- the error `fmt.Errorf("kexec of %v failed: %v", label, err)` -/
  | kexecFailed (entry : Option Label) (err : GoError)
deriving DecidableEq, Repr

/-- A `dhclient.Lease`: the results of its methods.  `Packet4IP` is `some ip` exactly
when the dynamic type is `*dhclient.Packet4`, with `ip = p4.Lease().IP`. -/
structure Lease where
  Link : Link
  Configure : Option GoError
  Boot : Except GoError URL
  Packet4IP : Option (List Nat)
deriving DecidableEq, Repr

/-- A `dhclient.Result` received from the channel. -/
structure Result where
  Interface : Link
  Lease : Lease
  Err : Option GoError
deriving DecidableEq, Repr

/-- A `pxe.Config` after `FindConfigFile`: the entry mapping and the default entry name. -/
structure Config where
  Entries : List (String × Label)
  DefaultEntry : String
deriving DecidableEq, Repr

/-- How a call of `label.Execute()` ends. -/
inductive ExecOutcome where
  /-- it returns a non-nil error -/
  | error (err : GoError)
  /-- it returns nil -/
  | returnsNil
  /-- control is transferred to the new kernel; the call never returns -/
  | noReturn
  /-- it panics (a nil receiver is dereferenced) -/
  | panics (msg : String)
deriving DecidableEq, Repr

/-- How a call of `label.ExecutionInfo(logger)` ends. -/
inductive InfoOutcome where
  /-- it returns -/
  | returns
  /-- it panics (a nil receiver is dereferenced) -/
  | panics (msg : String)
deriving DecidableEq, Repr

/-- The collaborators of the program, as the values they return. -/
structure World where
  /-- the flag `*dryRun` -/
  dryRun : Bool
  /-- the result of `netlink.LinkList()` -/
  LinkList : Except GoError (List Link)
  /-- the function `regexp.MustCompilePOSIX`; `none` when the pattern is invalid (the call
      panics) -/
  MustCompilePOSIX : String → Option Regex
  /-- the call `pxe.NewConfig(wd)` followed by `pc.FindConfigFile(mac, ip)` -/
  FindConfigFile : URL → List Nat → Option (List Nat) → Except GoError Config
  /-- the call `label.ExecutionInfo(logger)`, also on a nil entry -/
  ExecutionInfo : Entry → InfoOutcome
  /-- the call `label.Execute()`, also on a nil entry -/
  Execute : Entry → ExecOutcome

/-- Calls and channel operations, in the order the program performs them. -/
inductive Event where
  | sendRequests (ifs : List Link) (timeout : Nat) (retries : Nat) (ipv4 ipv6 : Bool)
  | recv (r : Result)
  | recvClosed
  | cancel
  | bootCall (l : Lease)
  | configure (l : Lease)
  | leaseBoot (l : Lease)
  | newConfig (wd : URL)
  | findConfigFile (mac : List Nat) (ip : Option (List Nat))
  | executionInfo (entry : Entry)
  | execute (entry : Entry)
deriving DecidableEq, Repr

/-- How a call of `Boot` or `Netboot` ends. -/
inductive Outcome where
  /-- the function returns `err` (`none` is nil) -/
  | returned (err : Option GoError)
  /-- the function panics -/
  | panicked (msg : String)
  /-- the call of `Execute` transferred control; the function never returns -/
  | transferred
  /-- the function is still blocked in `select` when the observations end -/
  | blocked
deriving DecidableEq, Repr

/-- A run: the calls made and how it ended. -/
structure Run where
  trace : List Event
  outcome : Outcome
deriving DecidableEq, Repr

/-- The constant `dhcpTimeout = 15 * time.Second`, in seconds. -/
def dhcpTimeout : Nat := 15

/-- The constant `dhcpTries = 3`. -/
def dhcpTries : Nat := 3

/-! ## Boot -/

/-- Go map indexing `pc.Entries[pc.DefaultEntry]`: the pointer stored under the key,
or the zero value of the element type, nil, when the key is absent. -/
def Config.lookup (pc : Config) (key : String) : Entry :=
  match pc.Entries.find? (fun kv => kv.1 == key) with
  | some kv => some kv.2
  | none => none

/-- The working directory URL built by `Boot`:
`&url.URL{Scheme: uri.Scheme, Host: uri.Host, Path: path.Dir(uri.Path)}`. -/
def workingDir (uri : URL) : URL :=
  { Scheme := uri.Scheme, Host := uri.Host, Path := path.Dir uri.Path }

/-- The function `func Boot(lease dhclient.Lease) error`: the calls it makes on the
lease, the config loader and the selected entry, and how it ends.  The logging calls
are left out.  The entry is used as the map lookup yields it, without a check; a
panic inside `ExecutionInfo` or `Execute` propagates out of `Boot`. -/
def Boot (w : World) (lease : Lease) : Run :=
  match lease.Configure with
  | some err => ⟨[.configure lease], .returned (some err)⟩
  | none =>
    match lease.Boot with
    | .error err => ⟨[.configure lease, .leaseBoot lease], .returned (some err)⟩
    | .ok uri =>
      let wd := workingDir uri
      let ip := lease.Packet4IP
      let pre := [Event.configure lease, .leaseBoot lease, .newConfig wd,
        .findConfigFile lease.Link.HardwareAddr ip]
      match w.FindConfigFile wd lease.Link.HardwareAddr ip with
      | .error err => ⟨pre, .returned (some (.parseConfig err))⟩
      | .ok pc =>
        let entry := pc.lookup pc.DefaultEntry
        if w.dryRun then
          match w.ExecutionInfo entry with
          | .returns => ⟨pre ++ [.executionInfo entry], .returned none⟩
          | .panics msg => ⟨pre ++ [.executionInfo entry], .panicked msg⟩
        else
          match w.Execute entry with
          | .error err => ⟨pre ++ [.execute entry], .returned (some (.kexecFailed entry err))⟩
          | .returnsNil => ⟨pre ++ [.execute entry], .panicked "unreachable"⟩
          | .noReturn => ⟨pre ++ [.execute entry], .transferred⟩
          | .panics msg => ⟨pre ++ [.execute entry], .panicked msg⟩

/-! ## Netboot -/

/-- What the result channel `r` offers when `select` is evaluated. -/
inductive ChanState where
  /-- no value is ready and the channel is open: the receive cannot proceed -/
  | empty
  /-- a result is ready to be received -/
  | result (r : Result)
  /-- the channel is closed and drained -/
  | closed
deriving DecidableEq, Repr

/-- The environment at one evaluation of the `select` statement. -/
structure Observation where
  /-- the timer of `context.WithTimeout` (dhcpTries*dhcpTimeout) has fired -/
  timerFired : Bool
  /-- the state of the channel `r` -/
  chan : ChanState
  /-- Go chooses pseudo-randomly among the cases that can proceed; `true` when
      the choice falls on `<-ctx.Done()` in case both can -/
  pickDone : Bool
deriving DecidableEq, Repr

/-- The loop `for _, iface := range ifs { if ifregex.MatchString(...) { append } }`. -/
def filterIfs (ifregex : Regex) (ifs : List Link) : List Link :=
  ifs.foldl
    (fun filteredIfs iface =>
      if ifregex.MatchString iface.Name then filteredIfs ++ [iface] else filteredIfs)
    []

/-- The value of `ctx.Err()` once the timer state of the current observation is taken into
account: the first of `cancel()` and the timer decides the error. -/
def ctxErr (ctx : Option GoError) (timerFired : Bool) : Option GoError :=
  match ctx with
  | some e => some e
  | none => if timerFired then some .DeadlineExceeded else none

/-- The effect of `cancel()` on the context: a context that is already done keeps
its error. -/
def cancelCtx (ctx : Option GoError) : Option GoError :=
  match ctx with
  | some e => some e
  | none => some .Canceled

/-- Prepend events to a run. -/
def Run.after (evs : List Event) (r : Run) : Run := ⟨evs ++ r.trace, r.outcome⟩

/-- Whether the receive `<-r` can proceed. -/
def ChanState.ready : ChanState → Bool
  | .empty => false
  | _ => true

/-- The body of `case result, ok := <-r` once a result has been received (`ok` is
true).  `ctx1` is `ctx.Err()` at that moment and `next c` is the remainder of the
loop, entered by falling out of the `if` or by `continue`, with context state `c`. -/
def onResult (w : World) (ctx1 : Option GoError) (result : Result)
    (next : Option GoError → Run) : Run :=
  match result.Err with
  | none =>
    -- cancel(); if err := Boot(result.Lease); err != nil { continue } else { return nil }
    let b := Boot w result.Lease
    match b.outcome with
    | .returned (some _) =>
      ((next (cancelCtx ctx1)).after b.trace).after
        [.recv result, .cancel, .bootCall result.Lease]
    | out => ⟨[.recv result, .cancel, .bootCall result.Lease] ++ b.trace, out⟩
  | some _ => (next ctx1).after [.recv result]

/-- The loop `for { select { case <-ctx.Done(): ... case result, ok := <-r: ... } }`.
`ctx` is `ctx.Err()` (`none` while the context is not done).  When neither case
can proceed the `select` blocks until the next observation; when both can, Go
picks one pseudo-randomly (`pickDone`). -/
def netbootLoop (w : World) : Option GoError → List Observation → Run
  | _, [] => ⟨[], .blocked⟩
  | ctx, o :: rest =>
    let ctx1 := ctxErr ctx o.timerFired
    -- case <-ctx.Done(): return ctx.Err()
    let doneCase : Run := ⟨[], .returned ctx1⟩
    -- case result, ok := <-r
    let recvCase : Run :=
      match o.chan with
      | .result result => onResult w ctx1 result (fun c => netbootLoop w c rest)
      -- if !ok { log.Printf("Configured all interfaces."); return fmt.Errorf(...) }
      | .closed => ⟨[.recvClosed], .returned (some .nothingBootable)⟩
      -- not selected: the receive cannot proceed
      | .empty => ⟨[], .blocked⟩
    match ctx1.isSome, o.chan.ready with
    | false, false => netbootLoop w ctx1 rest
    | false, true => recvCase
    | true, false => doneCase
    | true, true => if o.pickDone then doneCase else recvCase

/-- The function `func Netboot(ifaceNames string) error`, run against the observations
`obs` of its `select` statement.  The deferred `cancel()` runs after the return value
is fixed and is not recorded; the `cancel` events of a trace are those of line 64. -/
def Netboot (w : World) (ifaceNames : String) (obs : List Observation) : Run :=
  match w.LinkList with
  | .error err => ⟨[], .returned (some err)⟩
  | .ok ifs =>
    match w.MustCompilePOSIX ifaceNames with
    | none => ⟨[], .panicked "regexp: CompilePOSIX"⟩
    | some ifregex =>
      let filteredIfs := filterIfs ifregex ifs
      (netbootLoop w none obs).after
        [.sendRequests filteredIfs dhcpTimeout dhcpTries true true]

/-! ## Vocabulary for the statements -/

/-- The leases on which `Boot` was called, in call order. -/
def bootCalls : List Event → List Lease
  | [] => []
  | .bootCall l :: t => l :: bootCalls t
  | _ :: t => bootCalls t

/-- The results consumed from the channel, in order. -/
def received : List Event → List Result
  | [] => []
  | .recv r :: t => r :: received t
  | _ :: t => received t

/-- The entries on which `ExecutionInfo` was called, in call order. -/
def executionInfoCalls : List Event → List Entry
  | [] => []
  | .executionInfo e :: t => e :: executionInfoCalls t
  | _ :: t => executionInfoCalls t

/-- The entries on which `Execute` was called, in call order. -/
def executeCalls : List Event → List Entry
  | [] => []
  | .execute e :: t => e :: executeCalls t
  | _ :: t => executeCalls t

/-- The working directories handed to `pxe.NewConfig`, in call order. -/
def newConfigCalls : List Event → List URL
  | [] => []
  | .newConfig wd :: t => wd :: newConfigCalls t
  | _ :: t => newConfigCalls t

/-- The candidate sets handed to `dhclient.SendRequests`, in call order. -/
def sendRequestsCalls : List Event → List (List Link)
  | [] => []
  | .sendRequests ifs _ _ _ _ :: t => ifs :: sendRequestsCalls t
  | _ :: t => sendRequestsCalls t

/-- The `recv` events of the result-carrying observations of a list. -/
def recvEvents : List Observation → List Event
  | [] => []
  | o :: t =>
    match o.chan with
    | .result r => .recv r :: recvEvents t
    | _ => recvEvents t

/-- An observation made before the deadline in which the channel offers nothing
or a result that carries an error. -/
def Observation.quietBeforeDeadline (o : Observation) : Prop :=
  o.timerFired = false ∧ (o.chan = .empty ∨ ∃ r, o.chan = .result r ∧ r.Err ≠ none)

/-- An observation that does not offer a successful result. -/
def Observation.noSuccess (o : Observation) : Prop :=
  ∀ r, o.chan = .result r → r.Err ≠ none

/-! ## Sample data -/

/-- The interface `eth0`. -/
def eth0 : Link := ⟨"eth0", [0, 1, 2, 3, 4, 5]⟩

/-- An interface whose name contains `eth0` without being `eth0`. -/
def veth0 : Link := ⟨"veth0", [0, 1, 2, 3, 4, 6]⟩

/-- An interface whose name does not contain `eth0`. -/
def wlan0 : Link := ⟨"wlan0", [0, 1, 2, 3, 4, 7]⟩

/-- A boot URI as a DHCP server would hand it out. -/
def sampleURI : URL := { Scheme := "tftp", Host := "10.0.0.1", Path := "/boot/pxelinux.0" }

/-- A lease on `eth0` whose `Configure` and `Boot` succeed. -/
def goodLease : Lease := ⟨eth0, none, .ok sampleURI, some [10, 0, 0, 2]⟩

/-- A lease on `eth0` whose `Configure` fails. -/
def badLease : Lease := ⟨eth0, some (.ext "netlink: operation not permitted"), .ok sampleURI, none⟩

/-- A second lease, on `veth0`, whose `Boot` fails. -/
def otherLease : Lease := ⟨veth0, none, .error (.ext "no boot file name"), none⟩

/-- A configuration whose default entry exists. -/
def sampleConfig : Config := ⟨[("linux", ⟨"linux"⟩), ("rescue", ⟨"rescue"⟩)], "linux"⟩

/-- A configuration parsed from a file without a default line: the default entry
name is empty and is not a key of `Entries`. -/
def noDefaultConfig : Config := ⟨[("linux", ⟨"linux"⟩)], ""⟩

/-- The message of the Go runtime panic for a nil pointer dereference. -/
def nilDeref : String := "runtime error: invalid memory address or nil pointer dereference"

/-- A world with the given flag, interfaces and configuration, in which the pattern
`eth0` compiles to the literal, `ExecutionInfo` returns and `Execute` ends as `ex` on
an entry, and both panic on the nil entry. -/
def sampleWorld (dry : Bool) (ifs : List Link) (pc : Config) (ex : ExecOutcome) : World where
  dryRun := dry
  LinkList := .ok ifs
  MustCompilePOSIX := fun s => if s = "eth0" then some (Regex.literal s.data) else none
  FindConfigFile := fun _ _ _ => .ok pc
  ExecutionInfo := fun e =>
    match e with
    | some _ => .returns
    | none => .panics nilDeref
  Execute := fun e =>
    match e with
    | some _ => ex
    | none => .panics nilDeref


/-! ## The trace of Boot -/

@[simp] theorem Run.after_trace (evs : List Event) (r : Run) :
    (r.after evs).trace = evs ++ r.trace := rfl

@[simp] theorem Run.after_outcome (evs : List Event) (r : Run) :
    (r.after evs).outcome = r.outcome := rfl

theorem bootCalls_append (a b : List Event) :
    bootCalls (a ++ b) = bootCalls a ++ bootCalls b := by
  induction a with
  | nil => rfl
  | cons e t ih => cases e <;> simp [bootCalls, ih]

/-- The five ways through `Boot`, as equations. -/
theorem Boot_cases (w : World) (l : Lease) :
    (∃ e, l.Configure = some e ∧ Boot w l = ⟨[.configure l], .returned (some e)⟩) ∨
    (∃ e, l.Configure = none ∧ l.Boot = .error e ∧
      Boot w l = ⟨[.configure l, .leaseBoot l], .returned (some e)⟩) ∨
    (∃ uri e, l.Configure = none ∧ l.Boot = .ok uri ∧
      w.FindConfigFile (workingDir uri) l.Link.HardwareAddr l.Packet4IP = .error e ∧
      Boot w l = ⟨[.configure l, .leaseBoot l, .newConfig (workingDir uri),
        .findConfigFile l.Link.HardwareAddr l.Packet4IP], .returned (some (.parseConfig e))⟩) ∨
    (∃ uri pc, l.Configure = none ∧ l.Boot = .ok uri ∧
      w.FindConfigFile (workingDir uri) l.Link.HardwareAddr l.Packet4IP = .ok pc ∧
      w.dryRun = true ∧
      Boot w l = ⟨[.configure l, .leaseBoot l, .newConfig (workingDir uri),
        .findConfigFile l.Link.HardwareAddr l.Packet4IP,
        .executionInfo (pc.lookup pc.DefaultEntry)],
        match w.ExecutionInfo (pc.lookup pc.DefaultEntry) with
        | .returns => .returned none
        | .panics msg => .panicked msg⟩) ∨
    (∃ uri pc, l.Configure = none ∧ l.Boot = .ok uri ∧
      w.FindConfigFile (workingDir uri) l.Link.HardwareAddr l.Packet4IP = .ok pc ∧
      w.dryRun = false ∧
      Boot w l = ⟨[.configure l, .leaseBoot l, .newConfig (workingDir uri),
        .findConfigFile l.Link.HardwareAddr l.Packet4IP,
        .execute (pc.lookup pc.DefaultEntry)],
        match w.Execute (pc.lookup pc.DefaultEntry) with
        | .error err => .returned (some (.kexecFailed (pc.lookup pc.DefaultEntry) err))
        | .returnsNil => .panicked "unreachable"
        | .noReturn => .transferred
        | .panics msg => .panicked msg⟩) := by
  cases hC : l.Configure with
  | some e => simp [Boot, hC]
  | none =>
    cases hB : l.Boot with
    | error e => simp [Boot, hC, hB]
    | ok uri =>
      cases hF : w.FindConfigFile (workingDir uri) l.Link.HardwareAddr l.Packet4IP with
      | error e => simp [Boot, hC, hB, hF]
      | ok pc =>
        cases hD : w.dryRun with
        | true =>
          cases hI : w.ExecutionInfo (pc.lookup pc.DefaultEntry) <;>
            simp [Boot, hC, hB, hF, hD, hI]
        | false =>
          cases hE : w.Execute (pc.lookup pc.DefaultEntry) <;>
            simp [Boot, hC, hB, hF, hD, hE]

theorem bootCalls_Boot (w : World) (l : Lease) : bootCalls (Boot w l).trace = [] := by
  rcases Boot_cases w l with ⟨e, _, h⟩ | ⟨e, _, _, h⟩ | ⟨u, e, _, _, _, h⟩ |
    ⟨u, pc, _, _, _, _, h⟩ | ⟨u, pc, _, _, _, _, h⟩ <;> rw [h] <;> rfl

/-- No run of `Boot` ends blocked in a `select`. -/
theorem Boot_not_blocked (w : World) (l : Lease) : (Boot w l).outcome ≠ .blocked := by
  rcases Boot_cases w l with ⟨e, _, h⟩ | ⟨e, _, _, h⟩ | ⟨u, e, _, _, _, h⟩ |
    ⟨u, pc, _, _, _, _, h⟩ | ⟨u, pc, _, _, _, _, h⟩
  · rw [h]; simp
  · rw [h]; simp
  · rw [h]; simp
  · rw [h]; cases w.ExecutionInfo (pc.lookup pc.DefaultEntry) <;> simp
  · rw [h]; cases w.Execute (pc.lookup pc.DefaultEntry) <;> simp

/-! ## The select loop, case by case -/

/-- Neither case can proceed: the `select` blocks until the next observation. -/
theorem loop_wait (w : World) (ctx : Option GoError) (o : Observation)
    (rest : List Observation) (hctx : ctxErr ctx o.timerFired = none) (hc : o.chan = .empty) :
    netbootLoop w ctx (o :: rest) = netbootLoop w none rest := by
  simp [netbootLoop, hctx, hc, ChanState.ready]

/-- The receive case is taken and yields a result. -/
theorem loop_recv (w : World) (ctx : Option GoError) (o : Observation)
    (rest : List Observation) (r : Result)
    (hsel : ctxErr ctx o.timerFired = none ∨ o.pickDone = false) (hc : o.chan = .result r) :
    netbootLoop w ctx (o :: rest) =
      onResult w (ctxErr ctx o.timerFired) r (fun c => netbootLoop w c rest) := by
  cases h1 : ctxErr ctx o.timerFired with
  | none => simp [netbootLoop, h1, hc, ChanState.ready]
  | some e =>
    rcases hsel with h | h
    · rw [h1] at h; cases h
    · simp [netbootLoop, h1, hc, ChanState.ready, h]

/-- The receive case is taken on a closed channel. -/
theorem loop_closed (w : World) (ctx : Option GoError) (o : Observation)
    (rest : List Observation)
    (hsel : ctxErr ctx o.timerFired = none ∨ o.pickDone = false) (hc : o.chan = .closed) :
    netbootLoop w ctx (o :: rest) = ⟨[.recvClosed], .returned (some .nothingBootable)⟩ := by
  cases h1 : ctxErr ctx o.timerFired with
  | none => simp [netbootLoop, h1, hc, ChanState.ready]
  | some e =>
    rcases hsel with h | h
    · rw [h1] at h; cases h
    · simp [netbootLoop, h1, hc, ChanState.ready, h]

/-- The case `<-ctx.Done()` is taken. -/
theorem loop_done (w : World) (ctx : Option GoError) (o : Observation)
    (rest : List Observation) (e : GoError) (hctx : ctxErr ctx o.timerFired = some e)
    (hsel : o.chan = .empty ∨ o.pickDone = true) :
    netbootLoop w ctx (o :: rest) = ⟨[], .returned (some e)⟩ := by
  rcases hsel with h | h
  · simp [netbootLoop, hctx, h, ChanState.ready]
  · cases hc : o.chan <;> simp [netbootLoop, hctx, h, hc, ChanState.ready]

/-- Every evaluation of the `select` falls under one of the four cases above. -/
theorem select_cases (ctx : Option GoError) (o : Observation) :
    (ctxErr ctx o.timerFired = none ∧ o.chan = .empty) ∨
    ((ctxErr ctx o.timerFired = none ∨ o.pickDone = false) ∧ ∃ r, o.chan = .result r) ∨
    ((ctxErr ctx o.timerFired = none ∨ o.pickDone = false) ∧ o.chan = .closed) ∨
    (∃ e, ctxErr ctx o.timerFired = some e ∧ (o.chan = .empty ∨ o.pickDone = true)) := by
  cases h1 : ctxErr ctx o.timerFired <;> cases hc : o.chan <;> cases hp : o.pickDone <;> simp

/-- A result that carries an error is dropped and the loop goes on. -/
theorem onResult_err (w : World) (c : Option GoError) (r : Result)
    (next : Option GoError → Run) (h : r.Err ≠ none) :
    onResult w c r next = (next c).after [.recv r] := by
  obtain ⟨e, he⟩ := Option.ne_none_iff_exists'.mp h
  simp [onResult, he]

/-- A successful result whose `Boot` fails: `continue` with the context cancelled. -/
theorem onResult_boot_failed (w : World) (c : Option GoError) (r : Result)
    (next : Option GoError → Run) (e : GoError) (h : r.Err = none)
    (hb : (Boot w r.Lease).outcome = .returned (some e)) :
    onResult w c r next =
      ((next (cancelCtx c)).after (Boot w r.Lease).trace).after
        [.recv r, .cancel, .bootCall r.Lease] := by
  simp [onResult, h, hb]

/-- A successful result whose `Boot` does not return an error ends `Netboot` the
way `Boot` ended. -/
theorem onResult_boot_other (w : World) (c : Option GoError) (r : Result)
    (next : Option GoError → Run) (h : r.Err = none)
    (hb : ∀ e, (Boot w r.Lease).outcome ≠ .returned (some e)) :
    onResult w c r next =
      ⟨[.recv r, .cancel, .bootCall r.Lease] ++ (Boot w r.Lease).trace,
        (Boot w r.Lease).outcome⟩ := by
  cases hO : (Boot w r.Lease).outcome with
  | returned oe =>
    cases oe with
    | none => simp [onResult, h, hO]
    | some e => exact absurd hO (hb e)
  | panicked m => simp [onResult, h, hO]
  | transferred => simp [onResult, h, hO]
  | blocked => simp [onResult, h, hO]

/-! ## Netboot: runs without a bootable lease -/

theorem mem_recvEvents (e : Event) (obs : List Observation) (h : e ∈ recvEvents obs) :
    ∃ r, e = .recv r := by
  induction obs with
  | nil => simp [recvEvents] at h
  | cons o t ih =>
    cases hc : o.chan with
    | result r =>
      simp only [recvEvents, hc, List.mem_cons] at h
      rcases h with h | h
      · exact ⟨r, h⟩
      · exact ih h
    | empty => simp only [recvEvents, hc] at h; exact ih h
    | closed => simp only [recvEvents, hc] at h; exact ih h

theorem bootCalls_recvEvents (obs : List Observation) : bootCalls (recvEvents obs) = [] := by
  induction obs with
  | nil => rfl
  | cons o t ih => cases hc : o.chan <;> simp [recvEvents, hc, bootCalls, ih]

/-- Quiet observations before the deadline are passed over: their results are
received and dropped, then the loop continues with the context not done. -/
theorem loop_quiet_steps (w : World) (pre tail : List Observation)
    (hpre : ∀ p ∈ pre, p.quietBeforeDeadline) :
    netbootLoop w none (pre ++ tail) = (netbootLoop w none tail).after (recvEvents pre) := by
  induction pre with
  | nil => rfl
  | cons o t ih =>
    have ho := hpre o (List.mem_cons_self _ _)
    have ht := ih (fun p hp => hpre p (List.mem_cons_of_mem _ hp))
    have hctx : ctxErr none o.timerFired = none := by simp [ctxErr, ho.1]
    rcases ho.2 with hc | ⟨r, hc, hr⟩
    · rw [List.cons_append, loop_wait w none o _ hctx hc, ht]
      simp [recvEvents, hc]
    · rw [List.cons_append, loop_recv w none o _ r (Or.inl hctx) hc, hctx,
        onResult_err w none r _ hr, ht]
      simp [recvEvents, hc, Run.after]

/-- Without a successful result on offer the loop never calls `Boot`. -/
theorem loop_noSuccess (w : World) (obs : List Observation)
    (h : ∀ p ∈ obs, p.noSuccess) (ctx : Option GoError) :
    bootCalls (netbootLoop w ctx obs).trace = [] := by
  induction obs generalizing ctx with
  | nil => rfl
  | cons o t ih =>
    have ht := ih (fun p hp => h p (List.mem_cons_of_mem _ hp))
    rcases select_cases ctx o with ⟨h1, hc⟩ | ⟨hs, r, hc⟩ | ⟨hs, hc⟩ | ⟨e, h1, hs⟩
    · rw [loop_wait w ctx o t h1 hc]; exact ht none
    · rw [loop_recv w ctx o t r hs hc,
        onResult_err w _ r _ (h o (List.mem_cons_self _ _) r hc)]
      simp [bootCalls, ht]
    · rw [loop_closed w ctx o t hs hc]; rfl
    · rw [loop_done w ctx o t e h1 hs]; rfl

/-- The trace of `Netboot` once the interfaces are listed and the pattern compiles. -/
theorem Netboot_eq (w : World) (ifaceNames : String) (obs : List Observation)
    (ifs : List Link) (re : Regex) (hl : w.LinkList = .ok ifs)
    (hre : w.MustCompilePOSIX ifaceNames = some re) :
    Netboot w ifaceNames obs =
      (netbootLoop w none obs).after
        [.sendRequests (filterIfs re ifs) dhcpTimeout dhcpTries true true] := by
  simp [Netboot, hl, hre]

/-- C4. Error-carrying results followed by the closing of the channel, all observed
before the deadline: `Netboot` returns "nothing bootable found" and calls neither
`Boot` nor `Configure` on any lease.  With `pre = []` this is the run in which the
negotiator emits nothing. -/
theorem netboot_nothing_bootable (w : World) (ifaceNames : String) (ifs : List Link)
    (re : Regex) (pre : List Observation) (o : Observation) (rest : List Observation)
    (hl : w.LinkList = .ok ifs) (hre : w.MustCompilePOSIX ifaceNames = some re)
    (hpre : ∀ p ∈ pre, p.quietBeforeDeadline)
    (ht : o.timerFired = false) (hc : o.chan = .closed) :
    (Netboot w ifaceNames (pre ++ o :: rest)).outcome = .returned (some .nothingBootable) ∧
    ∀ l, Event.bootCall l ∉ (Netboot w ifaceNames (pre ++ o :: rest)).trace ∧
      Event.configure l ∉ (Netboot w ifaceNames (pre ++ o :: rest)).trace := by
  have hctx : ctxErr none o.timerFired = none := by simp [ctxErr, ht]
  rw [Netboot_eq w ifaceNames _ ifs re hl hre, loop_quiet_steps w pre _ hpre,
    loop_closed w none o rest (Or.inl hctx) hc]
  refine ⟨rfl, fun l => ⟨?_, ?_⟩⟩
  · intro hm
    have hm2 : Event.bootCall l ∈ recvEvents pre := by simpa using hm
    obtain ⟨r, hr⟩ := mem_recvEvents _ _ hm2
    cases hr
  · intro hm
    have hm2 : Event.configure l ∈ recvEvents pre := by simpa using hm
    obtain ⟨r, hr⟩ := mem_recvEvents _ _ hm2
    cases hr

/-- C4, at a concrete run: two failed negotiations, then the channel closes. -/
theorem netboot_nothing_bootable_witness :
    (Netboot (sampleWorld false [eth0] sampleConfig .noReturn) "eth0"
      ([⟨false, .result ⟨eth0, goodLease, some (.ext "timeout")⟩, false⟩,
        ⟨false, .empty, false⟩,
        ⟨false, .result ⟨eth0, goodLease, some (.ext "timeout")⟩, true⟩]
        ++ ⟨false, .closed, true⟩ :: [])).outcome = .returned (some .nothingBootable) ∧
    Event.bootCall goodLease ∉
      (Netboot (sampleWorld false [eth0] sampleConfig .noReturn) "eth0"
      ([⟨false, .result ⟨eth0, goodLease, some (.ext "timeout")⟩, false⟩,
        ⟨false, .empty, false⟩,
        ⟨false, .result ⟨eth0, goodLease, some (.ext "timeout")⟩, true⟩]
        ++ ⟨false, .closed, true⟩ :: [])).trace ∧
    Event.configure goodLease ∉
      (Netboot (sampleWorld false [eth0] sampleConfig .noReturn) "eth0"
      ([⟨false, .result ⟨eth0, goodLease, some (.ext "timeout")⟩, false⟩,
        ⟨false, .empty, false⟩,
        ⟨false, .result ⟨eth0, goodLease, some (.ext "timeout")⟩, true⟩]
        ++ ⟨false, .closed, true⟩ :: [])).trace :=
  have h := netboot_nothing_bootable (sampleWorld false [eth0] sampleConfig .noReturn) "eth0"
    [eth0] (Regex.literal "eth0".data)
    [⟨false, .result ⟨eth0, goodLease, some (.ext "timeout")⟩, false⟩,
      ⟨false, .empty, false⟩,
      ⟨false, .result ⟨eth0, goodLease, some (.ext "timeout")⟩, true⟩]
    ⟨false, .closed, true⟩ [] rfl rfl
    (by
      intro p hp
      simp only [List.mem_cons, List.mem_singleton, List.not_mem_nil, or_false] at hp
      rcases hp with rfl | rfl | rfl
      · exact ⟨rfl, Or.inr ⟨_, rfl, by simp⟩⟩
      · exact ⟨rfl, Or.inl rfl⟩
      · exact ⟨rfl, Or.inr ⟨_, rfl, by simp⟩⟩)
    rfl rfl
  ⟨h.1, (h.2 goodLease).1, (h.2 goodLease).2⟩

/-! ## Netboot: the first successful lease -/

/-- The remainder of a run after a successful result was received: the trace opens
with `recv`, `cancel()`, the call of `Boot` and its trace, no further `Boot` call
follows when the rest offers no successful result, and a `Boot` that returns nil
makes `Netboot` return nil. -/
theorem onResult_single (w : World) (c : Option GoError) (r : Result)
    (post : List Observation) (hok : r.Err = none) (hpost : ∀ p ∈ post, p.noSuccess) :
    ∃ t2, (onResult w c r (fun c1 => netbootLoop w c1 post)).trace =
        [.recv r, .cancel, .bootCall r.Lease] ++ (Boot w r.Lease).trace ++ t2 ∧
      bootCalls t2 = [] ∧
      ((Boot w r.Lease).outcome = .returned none →
        (onResult w c r (fun c1 => netbootLoop w c1 post)).outcome = .returned none) := by
  by_cases hb : ∃ e, (Boot w r.Lease).outcome = .returned (some e)
  · obtain ⟨e, he⟩ := hb
    refine ⟨(netbootLoop w (cancelCtx c) post).trace, ?_, loop_noSuccess w post hpost _, ?_⟩
    · rw [onResult_boot_failed w c r _ e hok he]
      simp
    · intro h; rw [he] at h; cases h
  · have hb2 : ∀ e, (Boot w r.Lease).outcome ≠ .returned (some e) := fun e h => hb ⟨e, h⟩
    refine ⟨[], ?_, rfl, ?_⟩
    · rw [onResult_boot_other w c r _ hok hb2]
      simp
    · intro h
      rw [onResult_boot_other w c r _ hok hb2]
      exact h

/-- C5. Exactly one result carries a successful lease and it is observed before the
deadline, after error results only: `Netboot` receives it, calls `cancel()`, then
calls `Boot` on that lease; no `Boot` call precedes or follows, so `Boot` is called
exactly once, on that lease; and if `Boot` returns nil then `Netboot` returns nil. -/
theorem netboot_single_success (w : World) (ifaceNames : String) (ifs : List Link)
    (re : Regex) (pre : List Observation) (o : Observation) (post : List Observation)
    (rL : Result)
    (hl : w.LinkList = .ok ifs) (hre : w.MustCompilePOSIX ifaceNames = some re)
    (hpre : ∀ p ∈ pre, p.quietBeforeDeadline)
    (ht : o.timerFired = false) (hc : o.chan = .result rL) (hok : rL.Err = none)
    (hpost : ∀ p ∈ post, p.noSuccess) :
    (∃ t1 t2, (Netboot w ifaceNames (pre ++ o :: post)).trace =
        t1 ++ [.recv rL, .cancel, .bootCall rL.Lease] ++ (Boot w rL.Lease).trace ++ t2 ∧
      bootCalls t1 = [] ∧ Event.cancel ∉ t1 ∧ bootCalls t2 = []) ∧
    bootCalls (Netboot w ifaceNames (pre ++ o :: post)).trace = [rL.Lease] ∧
    ((Boot w rL.Lease).outcome = .returned none →
      (Netboot w ifaceNames (pre ++ o :: post)).outcome = .returned none) := by
  have hctx : ctxErr none o.timerFired = none := by simp [ctxErr, ht]
  obtain ⟨t2, htr, hb2, hout⟩ := onResult_single w none rL post hok hpost
  have hrun : Netboot w ifaceNames (pre ++ o :: post) =
      ((onResult w none rL (fun c1 => netbootLoop w c1 post)).after (recvEvents pre)).after
        [.sendRequests (filterIfs re ifs) dhcpTimeout dhcpTries true true] := by
    rw [Netboot_eq w ifaceNames _ ifs re hl hre, loop_quiet_steps w pre _ hpre,
      loop_recv w none o post rL (Or.inl hctx) hc, hctx]
  have ht1 : bootCalls
      ([Event.sendRequests (filterIfs re ifs) dhcpTimeout dhcpTries true true]
        ++ recvEvents pre) = [] := by
    rw [bootCalls_append, bootCalls_recvEvents]; rfl
  refine ⟨⟨[.sendRequests (filterIfs re ifs) dhcpTimeout dhcpTries true true]
      ++ recvEvents pre, t2, ?_, ht1, ?_, hb2⟩, ?_, ?_⟩
  · rw [hrun]
    simp only [Run.after_trace, htr, List.append_assoc]
  · intro hm
    have hm2 : Event.cancel ∈ recvEvents pre := by simpa using hm
    obtain ⟨r, hr⟩ := mem_recvEvents _ _ hm2
    cases hr
  · rw [hrun]
    simp only [Run.after_trace, htr, bootCalls_append, bootCalls_recvEvents, bootCalls_Boot,
      hb2]
    rfl
  · intro h
    rw [hrun]
    exact hout h

/-- C5, at a concrete dry run: an error result, then the one successful lease, whose
`Boot` returns nil. -/
theorem netboot_single_success_witness :
    bootCalls (Netboot (sampleWorld true [eth0] sampleConfig .noReturn) "eth0"
        ([⟨false, .result ⟨eth0, badLease, some (.ext "timeout")⟩, false⟩]
          ++ ⟨false, .result ⟨eth0, goodLease, none⟩, false⟩ ::
            [⟨true, .closed, false⟩])).trace = [goodLease] ∧
    (Netboot (sampleWorld true [eth0] sampleConfig .noReturn) "eth0"
        ([⟨false, .result ⟨eth0, badLease, some (.ext "timeout")⟩, false⟩]
          ++ ⟨false, .result ⟨eth0, goodLease, none⟩, false⟩ ::
            [⟨true, .closed, false⟩])).outcome = .returned none :=
  have h := netboot_single_success (sampleWorld true [eth0] sampleConfig .noReturn) "eth0"
    [eth0] (Regex.literal "eth0".data)
    [⟨false, .result ⟨eth0, badLease, some (.ext "timeout")⟩, false⟩]
    ⟨false, .result ⟨eth0, goodLease, none⟩, false⟩ [⟨true, .closed, false⟩]
    ⟨eth0, goodLease, none⟩ rfl rfl
    (by
      intro p hp
      simp only [List.mem_singleton] at hp
      subst hp
      exact ⟨rfl, Or.inr ⟨_, rfl, by simp⟩⟩)
    rfl rfl rfl
    (by
      intro p hp r hr
      simp only [List.mem_singleton] at hp
      subst hp
      cases hr)
  ⟨h.2.1, h.2.2 (by decide)⟩

/-! ## Netboot: what happens after a failed Boot, and at the deadline -/

/-- In the loop, every `Boot` call but the last one returned an error. -/
theorem loop_bootCalls_failed (w : World) (obs : List Observation) (ctx : Option GoError) :
    ∀ l ∈ (bootCalls (netbootLoop w ctx obs).trace).dropLast,
      ∃ e, (Boot w l).outcome = .returned (some e) := by
  induction obs generalizing ctx with
  | nil => intro l hl; simp [netbootLoop, bootCalls] at hl
  | cons o rest ih =>
    intro l hl
    rcases select_cases ctx o with ⟨h1, hc⟩ | ⟨hs, r, hc⟩ | ⟨hs, hc⟩ | ⟨e, h1, hs⟩
    · rw [loop_wait w ctx o rest h1 hc] at hl
      exact ih none l hl
    · rw [loop_recv w ctx o rest r hs hc] at hl
      by_cases hE : r.Err = none
      · by_cases hb : ∃ e, (Boot w r.Lease).outcome = .returned (some e)
        · obtain ⟨e, he⟩ := hb
          rw [onResult_boot_failed w _ r _ e hE he] at hl
          have hbc : bootCalls ([Event.recv r, .cancel, .bootCall r.Lease] ++
              ((Boot w r.Lease).trace ++
                (netbootLoop w (cancelCtx (ctxErr ctx o.timerFired)) rest).trace)) =
              r.Lease ::
                bootCalls (netbootLoop w (cancelCtx (ctxErr ctx o.timerFired)) rest).trace := by
            rw [bootCalls_append, bootCalls_append, bootCalls_Boot]; rfl
          simp only [Run.after_trace] at hl
          rw [hbc] at hl
          cases hrest : bootCalls
              (netbootLoop w (cancelCtx (ctxErr ctx o.timerFired)) rest).trace with
          | nil => simp [hrest] at hl
          | cons x xs =>
            rw [hrest, List.dropLast_cons₂] at hl
            rcases List.mem_cons.mp hl with h | h
            · exact ⟨e, by rw [h, he]⟩
            · exact ih _ l (by rw [hrest]; exact h)
        · have hb2 : ∀ e, (Boot w r.Lease).outcome ≠ .returned (some e) :=
            fun e h => hb ⟨e, h⟩
          rw [onResult_boot_other w _ r _ hE hb2] at hl
          simp [bootCalls, bootCalls_append, bootCalls_Boot] at hl
      · rw [onResult_err w _ r _ hE] at hl
        simp only [Run.after_trace, bootCalls, List.singleton_append] at hl
        exact ih _ l hl
    · rw [loop_closed w ctx o rest hs hc] at hl
      simp [bootCalls] at hl
    · rw [loop_done w ctx o rest e h1 hs] at hl
      simp [bootCalls] at hl

/-- C2 as stated fails: the first lease's `Boot` fails, a second successful result is
ready at the next `select` together with the cancelled context, the receive case is
picked, and `Boot` is called on the second lease as well. -/
theorem netboot_boots_second_lease :
    bootCalls (Netboot (sampleWorld true [eth0, veth0] sampleConfig .noReturn) "eth0"
      [⟨false, .result ⟨eth0, badLease, none⟩, false⟩,
       ⟨false, .result ⟨veth0, otherLease, none⟩, false⟩]).trace = [badLease, otherLease] ∧
    badLease ≠ otherLease := by
  decide

/-- C2, amended. `Boot` is called on a further lease only after every earlier `Boot`
call returned an error: each `Boot` call of a run except the last returned an error,
so no result is boot-resolved after a `Boot` that returned nil, panicked or
transferred control. -/
theorem netboot_boot_again_only_after_failure (w : World) (ifaceNames : String)
    (obs : List Observation) :
    ∀ l ∈ (bootCalls (Netboot w ifaceNames obs).trace).dropLast,
      ∃ e, (Boot w l).outcome = .returned (some e) := by
  intro l hl
  cases hL : w.LinkList with
  | error e => simp [Netboot, hL, bootCalls] at hl
  | ok ifs =>
    cases hR : w.MustCompilePOSIX ifaceNames with
    | none => simp [Netboot, hL, hR, bootCalls] at hl
    | some re =>
      rw [Netboot_eq w ifaceNames obs ifs re hL hR] at hl
      simp only [Run.after_trace, bootCalls, List.singleton_append] at hl
      exact loop_bootCalls_failed w obs none l hl

/-- C2 amended, at the run of the counterexample: the first of the two leases was
boot-resolved before the second, and its `Boot` had returned an error. -/
theorem netboot_boot_again_only_after_failure_witness :
    badLease ∈ (bootCalls (Netboot (sampleWorld true [eth0, veth0] sampleConfig .noReturn)
      "eth0"
      [⟨false, .result ⟨eth0, badLease, none⟩, false⟩,
       ⟨false, .result ⟨veth0, otherLease, none⟩, false⟩]).trace).dropLast ∧
    ∃ e, (Boot (sampleWorld true [eth0, veth0] sampleConfig .noReturn) badLease).outcome
      = .returned (some e) :=
  ⟨by decide,
    netboot_boot_again_only_after_failure
      (sampleWorld true [eth0, veth0] sampleConfig .noReturn) "eth0"
      [⟨false, .result ⟨eth0, badLease, none⟩, false⟩,
       ⟨false, .result ⟨veth0, otherLease, none⟩, false⟩] badLease (by decide)⟩

/-- C3 as stated fails: the deadline has expired and a successful result is ready at
the same `select`; the receive case is picked, the result is consumed, `Boot` is
called, and `Netboot` returns nil instead of the deadline error. -/
theorem netboot_deadline_no_precedence :
    Netboot (sampleWorld true [eth0] sampleConfig .noReturn) "eth0"
      [⟨true, .result ⟨eth0, goodLease, none⟩, false⟩] =
    ⟨[.sendRequests [eth0] 15 3 true true, .recv ⟨eth0, goodLease, none⟩, .cancel,
      .bootCall goodLease, .configure goodLease, .leaseBoot goodLease,
      .newConfig { Scheme := "tftp", Host := "10.0.0.1", Path := "/boot" },
      .findConfigFile [0, 1, 2, 3, 4, 5] (some [10, 0, 0, 2]),
      .executionInfo (some ⟨"linux"⟩)], .returned none⟩ := by
  decide

/-- C3, amended. When the `select` is evaluated with the deadline expired, the
context not cancelled before, and either nothing ready on the channel or the choice
falling on `<-ctx.Done()`, the loop returns the deadline error at once: no result is
consumed and `Boot` is not called. -/
theorem netbootLoop_deadline (w : World) (ctx : Option GoError) (o : Observation)
    (rest : List Observation)
    (hctx : ctx = none ∨ ctx = some .DeadlineExceeded) (ht : o.timerFired = true)
    (hsel : o.chan = .empty ∨ o.pickDone = true) :
    netbootLoop w ctx (o :: rest) = ⟨[], .returned (some .DeadlineExceeded)⟩ := by
  have h1 : ctxErr ctx o.timerFired = some .DeadlineExceeded := by
    rcases hctx with h | h <;> simp [ctxErr, h, ht]
  exact loop_done w ctx o rest _ h1 hsel

/-- C3 amended, at a concrete step: deadline expired, nothing ready on the channel. -/
theorem netbootLoop_deadline_witness :
    netbootLoop (sampleWorld false [eth0] sampleConfig .noReturn) none
      (⟨true, .empty, false⟩ :: [⟨true, .result ⟨eth0, goodLease, none⟩, false⟩]) =
    ⟨[], .returned (some .DeadlineExceeded)⟩ :=
  netbootLoop_deadline (sampleWorld false [eth0] sampleConfig .noReturn) none
    ⟨true, .empty, false⟩ _ (Or.inl rfl) rfl (Or.inl rfl)

/-- C1, the code at the failing run: the lease is received before the deadline, its
`Boot` fails in `Configure`, the channel is open with nothing ready; the next
`select` finds the context cancelled by the earlier `cancel()` and `Netboot` returns
`context.Canceled` without consuming anything further. -/
theorem netboot_canceled_after_failed_boot :
    Netboot (sampleWorld false [eth0] sampleConfig .noReturn) "eth0"
      [⟨false, .result ⟨eth0, badLease, none⟩, false⟩, ⟨false, .empty, false⟩] =
    ⟨[.sendRequests [eth0] 15 3 true true, .recv ⟨eth0, badLease, none⟩, .cancel,
      .bootCall badLease, .configure badLease], .returned (some .Canceled)⟩ := by
  decide

/-! ## Boot: dry run, live run, and the default entry -/

theorem find_none_of_absent (entries : List (String × Label)) (key : String)
    (h : key ∉ entries.map Prod.fst) :
    entries.find? (fun kv => kv.1 == key) = none := by
  induction entries with
  | nil => rfl
  | cons kv t ih =>
    simp only [List.map_cons, List.mem_cons, not_or] at h
    have hne : (kv.1 == key) = false := by
      simp only [beq_eq_false_iff_ne, ne_eq]
      exact fun hk => h.1 hk.symm
    rw [List.find?_cons, hne]
    exact ih h.2

/-- Indexing with an absent key yields the nil entry. -/
theorem Config.lookup_absent (pc : Config) (key : String)
    (h : key ∉ pc.Entries.map Prod.fst) : pc.lookup key = none := by
  simp [Config.lookup, find_none_of_absent pc.Entries key h]

/-- Indexing a mapping (no key twice) with a present key yields the entry stored
under it. -/
theorem Config.lookup_present (pc : Config) (key : String) (e : Label)
    (hnd : (pc.Entries.map Prod.fst).Nodup) (hmem : (key, e) ∈ pc.Entries) :
    pc.lookup key = some e := by
  unfold Config.lookup
  obtain ⟨entries, dflt⟩ := pc
  simp only at hnd hmem ⊢
  induction entries with
  | nil => cases hmem
  | cons kv t ih =>
    rw [List.map_cons, List.nodup_cons] at hnd
    rcases List.mem_cons.mp hmem with h | h
    · subst h; simp
    · have hk : kv.1 ≠ key := by
        intro hk
        exact hnd.1 (by rw [hk]; exact List.mem_map_of_mem Prod.fst h)
      have hne : (kv.1 == key) = false := by simpa using hk
      rw [List.find?_cons, hne]
      exact ih hnd.2 h

/-- C6 as stated fails: on a dry run `Configure`, the boot-URI lookup and the config
discovery succeed, the configuration has no default line, so the lookup yields the
nil entry; `ExecutionInfo` is called on it and panics, and `Boot` does not return
nil. -/
theorem boot_dry_run_no_default_panics :
    goodLease.Configure = none ∧ goodLease.Boot = .ok sampleURI ∧
    (sampleWorld true [eth0] noDefaultConfig .noReturn).FindConfigFile (workingDir sampleURI)
      goodLease.Link.HardwareAddr goodLease.Packet4IP = .ok noDefaultConfig ∧
    Boot (sampleWorld true [eth0] noDefaultConfig .noReturn) goodLease =
      ⟨[.configure goodLease, .leaseBoot goodLease,
        .newConfig { Scheme := "tftp", Host := "10.0.0.1", Path := "/boot" },
        .findConfigFile [0, 1, 2, 3, 4, 5] (some [10, 0, 0, 2]),
        .executionInfo none], .panicked nilDeref⟩ := by
  decide

/-- C6, amended. With the dry-run flag set `Boot` never calls `Execute`; when
`Configure`, the boot-URI lookup and the config discovery succeed and the default
entry name is a key of `Entries`, `Boot` calls `ExecutionInfo` exactly once, on the
entry stored under that key, and, that call returning, returns nil. -/
theorem boot_dry_run (w : World) (lease : Lease) (hd : w.dryRun = true) :
    executeCalls (Boot w lease).trace = [] ∧
    ∀ uri pc e, lease.Configure = none → lease.Boot = .ok uri →
      w.FindConfigFile (workingDir uri) lease.Link.HardwareAddr lease.Packet4IP = .ok pc →
      (pc.Entries.map Prod.fst).Nodup → (pc.DefaultEntry, e) ∈ pc.Entries →
      executionInfoCalls (Boot w lease).trace = [some e] ∧
      (w.ExecutionInfo (some e) = .returns → (Boot w lease).outcome = .returned none) := by
  constructor
  · rcases Boot_cases w lease with ⟨e, _, h⟩ | ⟨e, _, _, h⟩ | ⟨u, e, _, _, _, h⟩ |
      ⟨u, pc, _, _, _, _, h⟩ | ⟨u, pc, _, _, _, hd2, h⟩
    · rw [h]; rfl
    · rw [h]; rfl
    · rw [h]; rfl
    · rw [h]; rfl
    · rw [hd] at hd2; cases hd2
  · intro uri pc e hC hB hF hnd hmem
    have hlook := Config.lookup_present pc pc.DefaultEntry e hnd hmem
    constructor
    · cases hI : w.ExecutionInfo (some e) <;>
        simp [Boot, hC, hB, hF, hd, hlook, hI, executionInfoCalls]
    · intro hI
      simp [Boot, hC, hB, hF, hd, hlook, hI]

/-- C6 amended, at a concrete dry run whose default entry `linux` exists. -/
theorem boot_dry_run_witness :
    executeCalls (Boot (sampleWorld true [eth0] sampleConfig .noReturn) goodLease).trace = [] ∧
    executionInfoCalls (Boot (sampleWorld true [eth0] sampleConfig .noReturn) goodLease).trace
      = [some ⟨"linux"⟩] ∧
    (Boot (sampleWorld true [eth0] sampleConfig .noReturn) goodLease).outcome
      = .returned none :=
  have h := boot_dry_run (sampleWorld true [eth0] sampleConfig .noReturn) goodLease rfl
  ⟨h.1,
    (h.2 sampleURI sampleConfig ⟨"linux"⟩ rfl rfl rfl (by decide) (by decide)).1,
    (h.2 sampleURI sampleConfig ⟨"linux"⟩ rfl rfl rfl (by decide) (by decide)).2 rfl⟩

/-- C7, the code at the failing input: `Configure`, the boot-URI lookup and the
config discovery succeed, and the default entry name (empty, the file has no default
line) is not a key of `Entries`.  `Boot` makes no existence check: the lookup yields
the nil entry, and `Boot` calls `ExecutionInfo` on it on a dry run and `Execute` on
it on a live run; the call panics, so `Boot` returns no error. -/
theorem boot_absent_default_entry_panics :
    noDefaultConfig.DefaultEntry ∉ noDefaultConfig.Entries.map Prod.fst ∧
    Boot (sampleWorld false [eth0] noDefaultConfig (.error (.ext "kexec_load failed")))
        goodLease =
      ⟨[.configure goodLease, .leaseBoot goodLease,
        .newConfig { Scheme := "tftp", Host := "10.0.0.1", Path := "/boot" },
        .findConfigFile [0, 1, 2, 3, 4, 5] (some [10, 0, 0, 2]),
        .execute none], .panicked nilDeref⟩ ∧
    executionInfoCalls
      (Boot (sampleWorld true [eth0] noDefaultConfig (.error (.ext "kexec_load failed")))
        goodLease).trace = [none] ∧
    (Boot (sampleWorld true [eth0] noDefaultConfig (.error (.ext "kexec_load failed")))
        goodLease).outcome = .panicked nilDeref := by
  decide

/-! ## Live runs -/

/-- The loop of `Netboot` returns nil only when some `Boot` call returned nil. -/
theorem loop_returns_nil (w : World) (obs : List Observation) (ctx : Option GoError)
    (h : (netbootLoop w ctx obs).outcome = .returned none) :
    ∃ l, (Boot w l).outcome = .returned none := by
  induction obs generalizing ctx with
  | nil => simp [netbootLoop] at h
  | cons o rest ih =>
    rcases select_cases ctx o with ⟨h1, hc⟩ | ⟨hs, r, hc⟩ | ⟨hs, hc⟩ | ⟨e, h1, hs⟩
    · rw [loop_wait w ctx o rest h1 hc] at h
      exact ih none h
    · rw [loop_recv w ctx o rest r hs hc] at h
      by_cases hE : r.Err = none
      · by_cases hb : ∃ e, (Boot w r.Lease).outcome = .returned (some e)
        · obtain ⟨e, he⟩ := hb
          rw [onResult_boot_failed w _ r _ e hE he] at h
          exact ih _ h
        · have hb2 : ∀ e, (Boot w r.Lease).outcome ≠ .returned (some e) :=
            fun e h => hb ⟨e, h⟩
          rw [onResult_boot_other w _ r _ hE hb2] at h
          exact ⟨r.Lease, h⟩
      · rw [onResult_err w _ r _ hE] at h
        exact ih _ h
    · rw [loop_closed w ctx o rest hs hc] at h
      cases h
    · rw [loop_done w ctx o rest e h1 hs] at h
      cases h

/-- C9. On a live run `Boot` never returns nil; when it reaches `Execute`, an error
from `Execute` makes it return the wrapping "kexec of ... failed" error and a nil
return from `Execute` makes it panic with "unreachable"; consequently `Netboot`
never returns nil on a live run. -/
theorem boot_live_never_succeeds (w : World) (hlive : w.dryRun = false) :
    (∀ lease, (Boot w lease).outcome ≠ .returned none) ∧
    (∀ lease entry, Event.execute entry ∈ (Boot w lease).trace →
      (∀ err, w.Execute entry = .error err →
        (Boot w lease).outcome = .returned (some (.kexecFailed entry err))) ∧
      (w.Execute entry = .returnsNil → (Boot w lease).outcome = .panicked "unreachable")) ∧
    (∀ ifaceNames obs, (Netboot w ifaceNames obs).outcome ≠ .returned none) := by
  have hboot : ∀ lease, (Boot w lease).outcome ≠ .returned none := by
    intro lease
    rcases Boot_cases w lease with ⟨e, _, h⟩ | ⟨e, _, _, h⟩ | ⟨u, e, _, _, _, h⟩ |
      ⟨u, pc, _, _, _, hd, h⟩ | ⟨u, pc, _, _, _, _, h⟩
    · rw [h]; simp
    · rw [h]; simp
    · rw [h]; simp
    · rw [hlive] at hd; cases hd
    · rw [h]
      cases w.Execute (pc.lookup pc.DefaultEntry) <;> simp
  refine ⟨hboot, ?_, ?_⟩
  · intro lease entry hmem
    rcases Boot_cases w lease with ⟨e, _, h⟩ | ⟨e, _, _, h⟩ | ⟨u, e, _, _, _, h⟩ |
      ⟨u, pc, _, _, _, hd, h⟩ | ⟨u, pc, _, _, _, _, h⟩
    · rw [h] at hmem; simp at hmem
    · rw [h] at hmem; simp at hmem
    · rw [h] at hmem; simp at hmem
    · rw [hlive] at hd; cases hd
    · rw [h] at hmem
      have hentry : entry = pc.lookup pc.DefaultEntry := by simpa using hmem
      rw [h, ← hentry]
      constructor
      · intro err herr
        simp [herr]
      · intro hnil
        simp [hnil]
  · intro ifaceNames obs hnil
    cases hL : w.LinkList with
    | error e => simp [Netboot, hL] at hnil
    | ok ifs =>
      cases hR : w.MustCompilePOSIX ifaceNames with
      | none => simp [Netboot, hL, hR] at hnil
      | some re =>
        rw [Netboot_eq w ifaceNames obs ifs re hL hR] at hnil
        obtain ⟨l, hl⟩ := loop_returns_nil w obs none hnil
        exact hboot l hl

/-- C9, at concrete live runs: `Execute` fails, `Execute` returns nil, and a whole
`Netboot` call. -/
theorem boot_live_never_succeeds_witness :
    (Boot (sampleWorld false [eth0] sampleConfig (.error (.ext "kexec_load failed")))
      goodLease).outcome =
        .returned (some (.kexecFailed (some ⟨"linux"⟩) (.ext "kexec_load failed"))) ∧
    (Netboot (sampleWorld false [eth0] sampleConfig (.error (.ext "kexec_load failed")))
      "eth0" [⟨false, .result ⟨eth0, goodLease, none⟩, false⟩]).outcome ≠ .returned none :=
  have h := boot_live_never_succeeds
    (sampleWorld false [eth0] sampleConfig (.error (.ext "kexec_load failed"))) rfl
  ⟨(h.2.1 goodLease (some ⟨"linux"⟩) (by decide)).1 (.ext "kexec_load failed") rfl,
    h.2.2 "eth0" [⟨false, .result ⟨eth0, goodLease, none⟩, false⟩]⟩

/-! ## The candidate set -/

theorem filterIfs_foldl (re : Regex) (ifs acc : List Link) :
    ifs.foldl
      (fun filteredIfs iface =>
        if re.MatchString iface.Name then filteredIfs ++ [iface] else filteredIfs) acc
      = acc ++ ifs.filter (fun i => re.MatchString i.Name) := by
  induction ifs generalizing acc with
  | nil => simp
  | cons i t ih =>
    rw [List.foldl_cons, ih]
    cases h : re.MatchString i.Name <;> simp [h]

/-- The filtering loop keeps, in order, the interfaces whose name contains a match. -/
theorem filterIfs_eq_filter (re : Regex) (ifs : List Link) :
    filterIfs re ifs = ifs.filter (fun i => re.MatchString i.Name) := by
  unfold filterIfs
  rw [filterIfs_foldl]
  rfl

theorem sendRequestsCalls_append (a b : List Event) :
    sendRequestsCalls (a ++ b) = sendRequestsCalls a ++ sendRequestsCalls b := by
  induction a with
  | nil => rfl
  | cons e t ih => cases e <;> simp [sendRequestsCalls, ih]

theorem sendRequestsCalls_Boot (w : World) (l : Lease) :
    sendRequestsCalls (Boot w l).trace = [] := by
  rcases Boot_cases w l with ⟨e, _, h⟩ | ⟨e, _, _, h⟩ | ⟨u, e, _, _, _, h⟩ |
    ⟨u, pc, _, _, _, _, h⟩ | ⟨u, pc, _, _, _, _, h⟩ <;> rw [h] <;> rfl

/-- The loop never calls `SendRequests`. -/
theorem loop_sendRequestsCalls (w : World) (obs : List Observation) (ctx : Option GoError) :
    sendRequestsCalls (netbootLoop w ctx obs).trace = [] := by
  induction obs generalizing ctx with
  | nil => rfl
  | cons o rest ih =>
    rcases select_cases ctx o with ⟨h1, hc⟩ | ⟨hs, r, hc⟩ | ⟨hs, hc⟩ | ⟨e, h1, hs⟩
    · rw [loop_wait w ctx o rest h1 hc]; exact ih none
    · rw [loop_recv w ctx o rest r hs hc]
      by_cases hE : r.Err = none
      · by_cases hb : ∃ e, (Boot w r.Lease).outcome = .returned (some e)
        · obtain ⟨e, he⟩ := hb
          rw [onResult_boot_failed w _ r _ e hE he]
          simp only [Run.after_trace, sendRequestsCalls_append, sendRequestsCalls_Boot, ih]
          rfl
        · have hb2 : ∀ e, (Boot w r.Lease).outcome ≠ .returned (some e) :=
            fun e h => hb ⟨e, h⟩
          rw [onResult_boot_other w _ r _ hE hb2]
          simp only [sendRequestsCalls_append, sendRequestsCalls_Boot]
          rfl
      · rw [onResult_err w _ r _ hE]
        simp only [Run.after_trace, sendRequestsCalls_append, ih]
        rfl
    · rw [loop_closed w ctx o rest hs hc]; rfl
    · rw [loop_done w ctx o rest e h1 hs]; rfl

/-- C8 as stated fails: with the pattern `eth0` the interface `veth0`, whose name
merely contains `eth0`, is handed to the negotiator as well, although the pattern
does not match its whole name. -/
theorem netboot_candidates_not_full_match :
    sendRequestsCalls
      (Netboot (sampleWorld true [eth0, wlan0, veth0] sampleConfig .noReturn) "eth0" []).trace
      = [[eth0, veth0]] ∧
    [eth0, wlan0, veth0].filter (fun i => (Regex.literal "eth0".data).fullMatch i.Name)
      = [eth0] := by
  decide

/-- C8, amended. The candidate set handed to the negotiator (once, as the first
call, with the timeout, the retry count and both flags set) is the sublist, in the
original order, of the interfaces whose name contains a match of the pattern
(`MatchString`); the match need not cover the whole name. -/
theorem netboot_candidates (w : World) (ifaceNames : String) (obs : List Observation)
    (ifs : List Link) (re : Regex) (hl : w.LinkList = .ok ifs)
    (hre : w.MustCompilePOSIX ifaceNames = some re) :
    (Netboot w ifaceNames obs).trace.head? =
      some (.sendRequests (ifs.filter (fun i => re.MatchString i.Name))
        dhcpTimeout dhcpTries true true) ∧
    sendRequestsCalls (Netboot w ifaceNames obs).trace =
      [ifs.filter (fun i => re.MatchString i.Name)] ∧
    (ifs.filter (fun i => re.MatchString i.Name)).Sublist ifs ∧
    ∀ i, i ∈ ifs.filter (fun i => re.MatchString i.Name) ↔
      i ∈ ifs ∧ re.MatchString i.Name = true := by
  rw [Netboot_eq w ifaceNames obs ifs re hl hre, filterIfs_eq_filter]
  refine ⟨rfl, ?_, List.filter_sublist _, fun i => List.mem_filter⟩
  simp only [Run.after_trace, sendRequestsCalls_append, loop_sendRequestsCalls]
  rfl

/-- C8 amended, at the interfaces of the counterexample. -/
theorem netboot_candidates_witness :
    sendRequestsCalls
      (Netboot (sampleWorld true [eth0, wlan0, veth0] sampleConfig .noReturn) "eth0"
        [⟨false, .closed, false⟩]).trace
      = [[eth0, wlan0, veth0].filter
          (fun i => (Regex.literal "eth0".data).MatchString i.Name)] :=
  (netboot_candidates (sampleWorld true [eth0, wlan0, veth0] sampleConfig .noReturn) "eth0"
    [⟨false, .closed, false⟩] [eth0, wlan0, veth0] (Regex.literal "eth0".data)
    rfl rfl).2.1

/-! ## The working directory -/

namespace path

theorem byteAt_append_left (p q : List Char) (i : Nat) (h : i < p.length) :
    byteAt (p ++ q) i = byteAt p i := by
  unfold byteAt
  exact List.getD_append p q _ i h

theorem byteAt_append_length (p : List Char) (c : Char) (q : List Char) :
    byteAt (p ++ c :: q) p.length = c := by
  unfold byteAt
  rw [List.getD_append_right p _ _ _ (le_refl _)]
  simp

theorem byteAt_append_right (p q : List Char) (k : Nat) :
    byteAt (p ++ q) (p.length + k) = byteAt q k := by
  unfold byteAt
  rw [List.getD_append_right p _ _ _ (Nat.le_add_right _ _)]
  simp

theorem byteAt_length (p : List Char) : byteAt p p.length = Char.ofNat 0 := by
  unfold byteAt
  exact List.getD_eq_default _ _ (le_refl _)

theorem byteAt_mem (q : List Char) (k : Nat) (h : k < q.length) : byteAt q k ∈ q := by
  unfold byteAt
  rw [List.getD_eq_getElem _ _ h]
  exact List.getElem_mem h

/-- The last slash of `P/f` with a slash-free `f` is the one written between them. -/
theorem lastIndexByte_append (p f : List Char) (hf : '/' ∉ f) (k : Nat) (hk : k ≤ f.length) :
    lastIndexByte (p ++ '/' :: f) '/' (p.length + 1 + k) = (p.length : Int) := by
  induction k with
  | zero =>
    show lastIndexByte (p ++ '/' :: f) '/' (p.length + 1) = _
    rw [lastIndexByte, byteAt_append_length]
    simp
  | succ k ih =>
    show lastIndexByte (p ++ '/' :: f) '/' ((p.length + 1 + k) + 1) = _
    rw [lastIndexByte]
    have hb : byteAt (p ++ '/' :: f) (p.length + 1 + k) = byteAt f k := by
      have h1 : p ++ '/' :: f = (p ++ ['/']) ++ f := by simp
      have h2 : p.length + 1 + k = (p ++ ['/']).length + k := by simp
      rw [h1, h2, byteAt_append_right]
    have hne : byteAt f k ≠ '/' := by
      intro h
      exact hf (h ▸ byteAt_mem f k (by omega))
    rw [hb, if_neg hne]
    exact ih (by omega)

/-- The function `Split` cuts `P/f` after the slash. -/
theorem SplitBytes_append (p f : List Char) (hf : '/' ∉ f) :
    SplitBytes (p ++ '/' :: f) = (p ++ ['/'], f) := by
  have hlen : (p ++ '/' :: f).length = p.length + 1 + f.length := by
    simp only [List.length_append, List.length_cons]; omega
  have hi := lastIndexByte_append p f hf f.length (le_refl _)
  unfold SplitBytes
  simp only [hlen, hi]
  have h1 : ((p.length : Int) + 1).toNat = (p ++ ['/']).length := by simp
  have h2 : p ++ '/' :: f = (p ++ ['/']) ++ f := by simp
  rw [h1, h2, List.take_left, List.drop_left]

theorem copyElem_fst_le (p : List Char) (k r : Nat) (out : lazybuf) (hr : r ≤ p.length) :
    r ≤ (copyElem p k r out).1 ∧ (copyElem p k r out).1 ≤ p.length := by
  induction k generalizing r out with
  | zero => exact ⟨le_refl _, hr⟩
  | succ k ih =>
    rw [copyElem]
    split
    · rename_i h
      have := ih (r + 1) (out.append (byteAt p r)) h.1
      exact ⟨by omega, this.2⟩
    · exact ⟨le_refl _, hr⟩

theorem copyElem_fst_gt (p : List Char) (k r : Nat) (out : lazybuf) (hk : 0 < k)
    (hr : r < p.length) (hc : byteAt p r ≠ '/') : r < (copyElem p k r out).1 := by
  cases k with
  | zero => omega
  | succ k =>
    rw [copyElem, if_pos ⟨hr, hc⟩]
    have := (copyElem_fst_le p k (r + 1) (out.append (byteAt p r)) hr).1
    omega

/-- Copying an element reads the same bytes whether or not a slash follows the path. -/
theorem copyElem_append_slash (p : List Char) (k r : Nat) (out : lazybuf)
    (hr : r ≤ p.length) (hk : p.length - r ≤ k) :
    copyElem (p ++ ['/']) (k + 1) r out = copyElem p k r out := by
  induction k generalizing r out with
  | zero =>
    have hrn : r = p.length := by omega
    subst hrn
    rw [copyElem, copyElem, byteAt_append_length]
    simp
  | succ k ih =>
    rw [copyElem]
    conv_rhs => rw [copyElem]
    by_cases hlt : r < p.length
    · have hb : byteAt (p ++ ['/']) r = byteAt p r := byteAt_append_left p _ r hlt
      have hlen : r < (p ++ ['/']).length := by
        simp only [List.length_append, List.length_cons, List.length_nil]; omega
      have hb2 : byteAt (p ++ ['/']) r ≠ '/' ↔ byteAt p r ≠ '/' := by rw [hb]
      by_cases hc : byteAt p r ≠ '/'
      · rw [if_pos (show r < (p ++ ['/']).length ∧ byteAt (p ++ ['/']) r ≠ '/' from
            ⟨hlen, hb2.mpr hc⟩),
          if_pos (show r < p.length ∧ byteAt p r ≠ '/' from ⟨hlt, hc⟩), hb]
        exact ih (r + 1) _ hlt (by omega)
      · rw [if_neg (show ¬ (r < (p ++ ['/']).length ∧ byteAt (p ++ ['/']) r ≠ '/') from
            fun h => hc (hb2.mp h.2)),
          if_neg (show ¬ (r < p.length ∧ byteAt p r ≠ '/') from fun h => hc h.2)]
    · have hrn : r = p.length := by omega
      subst hrn
      rw [if_neg (show ¬ (p.length < p.length ∧ byteAt p p.length ≠ '/') from
          fun h => hlt h.1), byteAt_append_length]
      simp

end path

namespace path

/-- The main loop of `Clean` behaves the same on `P` and on `P/`: the trailing slash is
an empty path element. -/
theorem cleanLoop_append_slash (p : List Char) (rooted : Bool) (fuel r : Nat) (out : lazybuf)
    (dotdot : Nat) (hr : r ≤ p.length) (hk : p.length - r ≤ fuel) :
    cleanLoop (p ++ ['/']) rooted (fuel + 1) r out dotdot = cleanLoop p rooted fuel r out dotdot := by
  have hlen : (p ++ ['/']).length = p.length + 1 := by simp
  induction fuel generalizing r out dotdot with
  | zero =>
    have hrn : r = p.length := by omega
    subst hrn
    rw [cleanLoop, cleanLoop]
    simp [byteAt_append_length, cleanLoop]
  | succ fuel ih =>
    by_cases hlt : r < p.length
    · have hlt2 : r < (p ++ ['/']).length := by omega
      have hb0 : byteAt (p ++ ['/']) r = byteAt p r := byteAt_append_left p _ r hlt
      have h1 : (r + 1 = (p ++ ['/']).length ∨ byteAt (p ++ ['/']) (r + 1) = '/') ↔
          (r + 1 = p.length ∨ byteAt p (r + 1) = '/') := by
        by_cases h : r + 1 < p.length
        · rw [byteAt_append_left p _ _ h, hlen]
          constructor
          · rintro (h2 | h2)
            · omega
            · exact Or.inr h2
          · rintro (h2 | h2)
            · omega
            · exact Or.inr h2
        · have hrn : r + 1 = p.length := by omega
          rw [hrn, byteAt_append_length]
          simp
      have h2 : (byteAt (p ++ ['/']) (r + 1) = '.' ∧
            (r + 2 = (p ++ ['/']).length ∨ byteAt (p ++ ['/']) (r + 2) = '/')) ↔
          (byteAt p (r + 1) = '.' ∧ (r + 2 = p.length ∨ byteAt p (r + 2) = '/')) := by
        by_cases h : r + 1 < p.length
        · rw [byteAt_append_left p _ _ h, hlen]
          by_cases h3 : r + 2 < p.length
          · rw [byteAt_append_left p _ _ h3]
            constructor
            · rintro ⟨ha, h4 | h4⟩
              · omega
              · exact ⟨ha, Or.inr h4⟩
            · rintro ⟨ha, h4 | h4⟩
              · omega
              · exact ⟨ha, Or.inr h4⟩
          · have hrn : r + 2 = p.length := by omega
            rw [hrn, byteAt_append_length]
            simp
        · have hrn : r + 1 = p.length := by omega
          rw [hrn, byteAt_append_length, byteAt_length]
          constructor
          · rintro ⟨ha, _⟩; exact absurd ha (by decide)
          · rintro ⟨ha, _⟩; exact absurd ha (by decide)
      rw [cleanLoop]
      conv_rhs => rw [cleanLoop]
      simp only [hlt, hlt2, hb0, h1, h2, if_true]
      rw [hlen, copyElem_append_slash p p.length r _ (le_of_lt hlt) (by omega)]
      by_cases c1 : byteAt p r = '/'
      · rw [if_pos c1, if_pos c1]
        exact ih (r + 1) out dotdot hlt (by omega)
      · rw [if_neg c1, if_neg c1]
        by_cases c2 : byteAt p r = '.' ∧ (r + 1 = p.length ∨ byteAt p (r + 1) = '/')
        · rw [if_pos c2, if_pos c2]
          exact ih (r + 1) out dotdot hlt (by omega)
        · rw [if_neg c2, if_neg c2]
          by_cases c3 : byteAt p r = '.' ∧ byteAt p (r + 1) = '.' ∧
              (r + 2 = p.length ∨ byteAt p (r + 2) = '/')
          · rw [if_pos c3, if_pos c3]
            have hr2 : r + 2 ≤ p.length := by
              by_contra hcon
              have hrn : r + 1 = p.length := by omega
              have hdot := c3.2.1
              rw [hrn, byteAt_length] at hdot
              exact absurd hdot (by decide)
            by_cases d1 : dotdot < out.w
            · rw [if_pos d1, if_pos d1]
              exact ih (r + 2) _ dotdot hr2 (by omega)
            · rw [if_neg d1, if_neg d1]
              by_cases d2 : rooted = false
              · rw [if_pos d2, if_pos d2]
                exact ih (r + 2) _ _ hr2 (by omega)
              · rw [if_neg d2, if_neg d2]
                exact ih (r + 2) out dotdot hr2 (by omega)
          · rw [if_neg c3, if_neg c3]
            have hle := (copyElem_fst_le p p.length r
              (if rooted = true ∧ out.w ≠ 1 ∨ rooted = false ∧ out.w ≠ 0 then out.append '/'
                else out) (le_of_lt hlt)).2
            have hgt := copyElem_fst_gt p p.length r
              (if rooted = true ∧ out.w ≠ 1 ∨ rooted = false ∧ out.w ≠ 0 then out.append '/'
                else out) (by omega) hlt c1
            exact ih _ _ dotdot hle (by omega)
    · have hrn : r = p.length := by omega
      subst hrn
      rw [cleanLoop]
      conv_rhs => rw [cleanLoop]
      simp [byteAt_append_length, cleanLoop]

/-- The function `Clean` ignores one trailing slash of a non-empty path. -/
theorem CleanBytes_append_slash (p : List Char) (hp : p ≠ []) :
    CleanBytes (p ++ ['/']) = CleanBytes p := by
  have hpos : 0 < p.length := List.length_pos.mpr hp
  have hne : p ++ ['/'] ≠ [] := by simp
  have hb0 : byteAt (p ++ ['/']) 0 = byteAt p 0 := byteAt_append_left p _ 0 hpos
  have hlen : (p ++ ['/']).length = p.length + 1 := by simp
  unfold CleanBytes
  rw [if_neg hne, if_neg hp, hb0, hlen]
  simp only
  by_cases hroot : byteAt p 0 = '/'
  · simp only [hroot, decide_True, if_true]
    rw [cleanLoop_append_slash p true p.length 1 _ 1 hpos (by omega)]
  · simp only [hroot, decide_False, Bool.false_eq_true, if_false]
    rw [cleanLoop_append_slash p false p.length 0 _ 0 (Nat.zero_le _) (by omega)]

/-- The parent directory of `P/f`: for a non-empty path `P` that is already clean
and a slash-free `f`, `Dir` returns `P`. -/
theorem Dir_append (P f : String) (hP : P ≠ "") (hclean : Clean P = P)
    (hf : '/' ∉ f.data) : Dir (P ++ "/" ++ f) = P := by
  have hPd : P.data ≠ [] := by
    intro h
    apply hP
    cases P
    simp_all
  have hdata : (P ++ "/" ++ f).data = P.data ++ '/' :: f.data := by
    simp [String.data_append]
  unfold Dir Split
  simp only [hdata, SplitBytes_append P.data f.data hf]
  unfold Clean at hclean ⊢
  simp only [CleanBytes_append_slash P.data hPd]
  exact hclean

/-- The parent directory of `/f` is the root. -/
theorem Dir_root (f : String) (hf : '/' ∉ f.data) : Dir ("/" ++ f) = "/" := by
  have hdata : ("/" ++ f).data = [] ++ '/' :: f.data := by
    simp [String.data_append]
  unfold Dir Split
  simp only [hdata, SplitBytes_append [] f.data hf]
  decide

end path

theorem newConfigCalls_of_boot_uri (w : World) (lease : Lease) (uri : URL)
    (hC : lease.Configure = none) (hB : lease.Boot = .ok uri) :
    newConfigCalls (Boot w lease).trace = [workingDir uri] := by
  cases hF : w.FindConfigFile (workingDir uri) lease.Link.HardwareAddr lease.Packet4IP with
  | error e => simp [Boot, hC, hB, hF, newConfigCalls]
  | ok pc =>
    cases hD : w.dryRun with
    | true =>
      cases hI : w.ExecutionInfo (pc.lookup pc.DefaultEntry) <;>
        simp [Boot, hC, hB, hF, hD, hI, newConfigCalls]
    | false =>
      cases hE : w.Execute (pc.lookup pc.DefaultEntry) <;>
        simp [Boot, hC, hB, hF, hD, hE, newConfigCalls]

/-- C10. When the lease yields the boot URI `uri`, `Boot` hands exactly one working
directory to the config loader; it has the scheme and host of `uri`, its path is
`path.Dir uri.Path`, and all other components are empty.  For `uri.Path = P/f` with `f`
a non-empty slash-free segment and `P` a non-empty clean absolute path its path is
`P`; for `uri.Path = /f` it is `/`. -/
theorem boot_working_directory (w : World) (lease : Lease) (uri : URL)
    (hC : lease.Configure = none) (hB : lease.Boot = .ok uri) :
    ∃ wd, newConfigCalls (Boot w lease).trace = [wd] ∧
      wd.Scheme = uri.Scheme ∧ wd.Host = uri.Host ∧ wd.Path = path.Dir uri.Path ∧
      wd.Opaque = "" ∧ wd.User = none ∧ wd.RawPath = "" ∧ wd.ForceQuery = false ∧
      wd.RawQuery = "" ∧ wd.Fragment = "" ∧
      (∀ P f : String, P ≠ "" → path.Clean P = P → P.data.head? = some '/' →
        f ≠ "" → '/' ∉ f.data → uri.Path = P ++ "/" ++ f → wd.Path = P) ∧
      (∀ f : String, f ≠ "" → '/' ∉ f.data → uri.Path = "/" ++ f → wd.Path = "/") := by
  refine ⟨workingDir uri, newConfigCalls_of_boot_uri w lease uri hC hB, rfl, rfl, rfl, rfl,
    rfl, rfl, rfl, rfl, rfl, ?_, ?_⟩
  · intro P f hP hclean _ _ hf hpath
    show path.Dir uri.Path = P
    rw [hpath]
    exact path.Dir_append P f hP hclean hf
  · intro f _ hf hpath
    show path.Dir uri.Path = "/"
    rw [hpath]
    exact path.Dir_root f hf

/-- C10, at the boot URI `tftp://10.0.0.1/boot/pxelinux.0`: the working directory
is `tftp://10.0.0.1/boot`. -/
theorem boot_working_directory_witness :
    ∃ wd, newConfigCalls
        (Boot (sampleWorld true [eth0] sampleConfig .noReturn) goodLease).trace = [wd] ∧
      wd.Scheme = "tftp" ∧ wd.Host = "10.0.0.1" ∧ wd.Path = "/boot" := by
  obtain ⟨wd, h1, h2, h3, _, _, _, _, _, _, _, hP, _⟩ :=
    boot_working_directory (sampleWorld true [eth0] sampleConfig .noReturn) goodLease
      sampleURI rfl rfl
  exact ⟨wd, h1, h2, h3,
    hP "/boot" "pxelinux.0" (by decide) (by decide) (by decide) (by decide) (by decide)
      (by decide)⟩

end Pxeboot
